import Mathlib

/-!
Verification development for hotspot's `SourceCodeModel`
(src/models/sourcecodemodel.cpp).

The single source file under verification implements a Qt table model that
annotates a windowed slice of a source file with per-line aggregated
self-costs derived from disassembly output.  The class is embedded
shallowly: its member state becomes a Lean structure, each member function
becomes a pure state-passing function, and the file system is passed in as
an `Option String` (the content of the resolved file, `none` when the file
cannot be opened).  `Q_ASSERT` is a no-op in release builds, so the
embedding follows the release semantics; the one genuinely unreachable
branch — the unchecked `lines[i]` indexing in the row-building loop — is
modelled by returning `none`.

Types from the wider repository that this file uses but that are not part
of the verified source (`Data::Costs`, `Data::CallerCalleeResults`,
`DisassemblyOutput`, the header's member declarations and Qt itself) are
modelled from the spec and marked as such in their doc comments.
-/

namespace SourceCodeModelSpec

/-- `INT_MAX` of the C++ `int` type: initial value of `minLineNumber`. -/
def INT_MAX : Int := 2147483647

/-- Modelled from the spec: symbol identity from `DisassemblyOutput`;
only the human-readable `prettySymbol` label is consumed here, equality
of symbols selects the per-symbol cost entry. -/
structure Symbol where
  prettySymbol : String
deriving DecidableEq

/-- Modelled from the spec: one decoded instruction of the disassembly
with its address and resolved source line (`0` = no source mapping);
the other fields of the C++ struct are not consumed by this component. -/
structure DisassemblyEntry where
  addr : Nat
  sourceCodeLine : Int
deriving DecidableEq

/-- Modelled from the spec: the disassembly-output record handed to
`setDisassembly`: symbol identity, source file name (possibly empty) and
the ordered instruction entries. -/
structure DisassemblyOutput where
  symbol : Symbol
  sourceFileName : String
  disassemblyLines : List DisassemblyEntry
deriving DecidableEq

/-- Modelled from the spec: the per-address location cost record; only
the per-cost-type self-cost vector is consumed. -/
structure LocationCost where
  selfCost : List Int
deriving DecidableEq

/-- Modelled from the spec: the per-symbol cost entry, a map from
instruction address to its recorded location cost (`offsetMap`),
represented as an association list. -/
structure EntryData where
  offsetMap : List (Nat × LocationCost)
deriving DecidableEq

/-- Association-list lookup mirroring `entry.offsetMap.find(line.addr)`. -/
def lookupAddr : List (Nat × LocationCost) → Nat → Option LocationCost
  | [], _ => none
  | (a, c) :: rest, addr => if a = addr then some c else lookupAddr rest addr

/-- Modelled from the spec: the cost-type catalog of the active cost
context (`m_callerCalleeResults.selfCosts`): type names and each type's
grand total. -/
structure SelfCosts where
  typeNames : List String
  totalCosts : List Int
deriving DecidableEq

/-- Modelled from the spec: the number of cost types is the size of the
cost-type catalog. -/
def SelfCosts.numTypes (s : SelfCosts) : Nat := s.typeNames.length

/-- Modelled from the spec: the active cost-results record: per-symbol
cost entries plus the cost-type catalog. -/
structure CallerCalleeResults where
  entries : List (Symbol × EntryData)
  selfCosts : SelfCosts
deriving DecidableEq

/-- Association-list lookup for the per-symbol entries. -/
def lookupSym : List (Symbol × EntryData) → Symbol → Option EntryData
  | [], _ => none
  | (s, e) :: rest, sym => if s = sym then some e else lookupSym rest sym

/-- Modelled from the spec: `CallerCalleeResults::entry(symbol)` resolves
the per-symbol cost entry, yielding a default (empty) entry when the
symbol has none. -/
def CallerCalleeResults.entry (r : CallerCalleeResults) (sym : Symbol) : EntryData :=
  (lookupSym r.entries sym).getD ⟨[]⟩

/-- Pointwise addition of two per-type cost vectors; a missing position
counts as zero (vectors of equal length — the invariant maintained by the
cost context — make this plain `zipWith (+)`). -/
def addVec : List Int → List Int → List Int
  | [], ys => ys
  | x :: xs, [] => x :: xs
  | x :: xs, y :: ys => (x + y) :: addVec xs ys

/-- Association-list lookup from a source-line id to its accumulated
cost vector. -/
def lookupLine : List (Int × List Int) → Int → Option (List Int)
  | [], _ => none
  | (k, w) :: rest, id => if k = id then some w else lookupLine rest id

/-- Add a cost vector to the accumulated vector of a line id, inserting
the line when absent. -/
def accumulate : List (Int × List Int) → Int → List Int → List (Int × List Int)
  | [], id, v => [(id, v)]
  | (k, w) :: rest, id, v =>
      if k = id then (k, addVec w v) :: rest else (k, w) :: accumulate rest id v

/-- Modelled from the spec: the `Data::Costs` value (`m_costs`): per
cost-type index a mapping from source-line id to an accumulated cost
value, plus the type names and each type's grand total.  Accumulation is
additive; a line never present has implicit cost zero. -/
structure Costs where
  typeNames : List String
  totals : List Int
  values : List (Int × List Int)
deriving DecidableEq

/-- Modelled from the spec: `Costs::add(id, costLine)` — additive
accumulation of a per-type cost vector at a line id. -/
def Costs.add (c : Costs) (id : Int) (costLine : List Int) : Costs :=
  { c with values := accumulate c.values id costLine }

/-- Modelled from the spec: `Costs::cost(type, id)` — the accumulated
cost of the given type at the given line id, zero when never added. -/
def Costs.cost (c : Costs) (type : Nat) (id : Int) : Int :=
  match lookupLine c.values id with
  | some w => w.getD type 0
  | none => 0

/-- Modelled from the spec: `Costs::totalCost(type)` — the type's grand
total. -/
def Costs.totalCost (c : Costs) (type : Nat) : Int := c.totals.getD type 0

/-- Modelled from the spec: `Costs::typeName(type)`. -/
def Costs.typeName (c : Costs) (type : Nat) : String := c.typeNames.getD type ""

/-- Modelled from the spec: `m_costs = {}; m_costs.initializeCostsFrom(
m_callerCalleeResults.selfCosts)` — a fresh cost table sized to the
active cost-type catalog, with empty accumulated values. -/
def Costs.initFrom (selfCosts : SelfCosts) : Costs :=
  { typeNames := selfCosts.typeNames, totals := selfCosts.totalCosts, values := [] }

/-- Modelled from the spec: `Util::formatCostRelative`, an external pure
formatting collaborator; its exact output is out of scope and irrelevant
to every claim. -/
def formatCostRelative (cost total : Int) : String :=
  toString cost ++ "/" ++ toString total

/-- Splitting a character list on the line-feed character, with
`QString::split` semantics: the empty string yields one empty part, a
trailing line feed yields a trailing empty part. -/
def splitLF : List Char → List (List Char)
  | [] => [[]]
  | c :: rest =>
      match splitLF rest with
      | h :: t => if c = '\n' then [] :: h :: t else (c :: h) :: t
      | [] => [[]]

/-- `QString::fromUtf8(file.readAll()).split(QLatin1Char('\n'))`: the
file content split into physical lines on line feeds. -/
def splitLines (s : String) : List String :=
  (splitLF s.data).map (fun cs => String.mk cs)

/-- `QSet<int>::insert`, on the insertion-ordered list representation of
the set. -/
def insertSet (v : List Int) (x : Int) : List Int :=
  if x ∈ v then v else v ++ [x]

/-- The member state of `SourceCodeModel` (the header's members are not
part of the verified source; field names follow the `m_` members the
source file reads and writes). -/
structure State where
  sourceCode : List String
  validLineNumbers : List Int
  costs : Costs
  lineOffset : Int
  highlightLine : Int
  numTypes : Nat
  callerCalleeResults : CallerCalleeResults
  sysroot : String
deriving DecidableEq

/-- `COLUMN_COUNT`: the two fixed columns (source text, line number). -/
def COLUMN_COUNT : Nat := 2

/-- `SourceCodeModel::clear()`: clears `m_sourceCode` (the begin/end
reset-model calls are view notifications and carry no data). -/
def State.clear (st : State) : State := { st with sourceCode := [] }

/-- `SourceCodeModel::rowCount` (invalid-parent case): the number of
displayed lines. -/
def State.rowCount (st : State) : Nat := st.sourceCode.length

/-- `SourceCodeModel::columnCount` (invalid-parent case):
`COLUMN_COUNT + m_numTypes`. -/
def State.columnCount (st : State) : Nat := COLUMN_COUNT + st.numTypes

/-- `SourceCodeModel::lineForIndex`: `index.row() + m_lineOffset`. -/
def State.lineForIndex (st : State) (row : Int) : Int := row + st.lineOffset

/-- `SourceCodeModel::updateHighlighting`: stores the highlighted line
(the emitted `dataChanged` is a view notification and carries no data). -/
def State.updateHighlighting (st : State) (line : Int) : State :=
  { st with highlightLine := line }

/-- `SourceCodeModel::setSysroot`. -/
def State.setSysroot (st : State) (s : String) : State := { st with sysroot := s }

/-- `SourceCodeModel::setCallerCalleeResults`: stores the results and
`m_numTypes = results.selfCosts.numTypes()`; nothing else is written. -/
def State.setCallerCalleeResults (st : State) (results : CallerCalleeResults) : State :=
  { st with callerCalleeResults := results, numTypes := results.selfCosts.numTypes }

/-- The loop state of the scan over `disassemblyOutput.disassemblyLines`:
`maxLineNumber`, `minLineNumber`, `m_costs` and `m_validLineNumbers`. -/
structure ScanState where
  maxLine : Int
  minLine : Int
  costs : Costs
  valid : List Int
deriving DecidableEq

/-- One iteration of the scan loop in `setDisassembly`: skip entries with
source line 0; otherwise update max/min, add the address's recorded
self-cost (when present in the symbol's `offsetMap`) to the entry's
source line, and insert the line into the valid-line set. -/
def scanStep (entry : EntryData) (s : ScanState) (l : DisassemblyEntry) : ScanState :=
  if l.sourceCodeLine = 0 then s
  else
    { maxLine := if l.sourceCodeLine > s.maxLine then l.sourceCodeLine else s.maxLine
      minLine := if l.sourceCodeLine < s.minLine then l.sourceCodeLine else s.minLine
      costs := match lookupAddr entry.offsetMap l.addr with
               | some lc => s.costs.add l.sourceCodeLine lc.selfCost
               | none => s.costs
      valid := insertSet s.valid l.sourceCodeLine }

/-- `lines[i]` on `QList` with an `Int` index: in-bounds access yields the
element, out-of-bounds is the unreachable branch (`none`). -/
def qtLineAt (lines : List String) (i : Int) : Option String :=
  if h : 0 ≤ i ∧ i.toNat < lines.length then some (lines.get ⟨i.toNat, h.2⟩) else none

/-- The row-building loop `for (i = lo; i < hi; i++) push_back(lines[i])`,
unrolled on the iteration count; `none` as soon as an index is out of
bounds. -/
def sliceRowsAux (lines : List String) : Nat → Int → Option (List String)
  | 0, _ => some []
  | n + 1, i =>
      match qtLineAt lines i with
      | none => none
      | some s =>
          match sliceRowsAux lines n (i + 1) with
          | none => none
          | some rest => some (s :: rest)

/-- The row-building loop from `lo` (inclusive) to `hi` (exclusive). -/
def sliceRows (lines : List String) (lo hi : Int) : Option (List String) :=
  sliceRowsAux lines (hi - lo).toNat lo

/-- `SourceCodeModel::setDisassembly` under release semantics
(`Q_ASSERT` disabled).  `file` is the content of the resolved source
file, `none` when it cannot be opened.  The result is `none` exactly when
the unchecked `lines[i]` access in the row-building loop goes out of
bounds (undefined behaviour in the C++). -/
def setDisassembly (st : State) (d : DisassemblyOutput) (file : Option String) :
    Option State :=
  if d.sourceFileName = "" then some st
  else
    match file with
    | none => some st
    | some content =>
        let entry := st.callerCalleeResults.entry d.symbol
        let init : ScanState :=
          { maxLine := 0, minLine := INT_MAX
            costs := Costs.initFrom st.callerCalleeResults.selfCosts, valid := [] }
        let scan := d.disassemblyLines.foldl (scanStep entry) init
        let lines := splitLines content
        match sliceRows lines (scan.minLine - 1) scan.maxLine with
        | none => none
        | some slice =>
            some { st with
                    validLineNumbers := scan.valid
                    costs := scan.costs
                    lineOffset := scan.minLine - 1
                    sourceCode := st.sourceCode ++ (d.symbol.prettySymbol :: slice) }

/-- The Qt roles consumed by `SourceCodeModel::data`. -/
inductive Role
  | display
  | toolTip
  | cost
  | totalCost
  | highlight
  | rainbowLineNumber
deriving DecidableEq

/-- The `QVariant` results `data` can produce. -/
inductive QVariant
  | empty
  | ofString (s : String)
  | ofInt (i : Int)
  | ofBool (b : Bool)
deriving DecidableEq

/-- `QAbstractItemModel::hasIndex` for a table model with an invalid
parent: row and column within the model's bounds. -/
def State.hasIndex (st : State) (row col : Int) : Prop :=
  0 ≤ row ∧ row < (st.sourceCode.length : Int) ∧ 0 ≤ col ∧ col < (st.columnCount : Int)

instance (st : State) (row col : Int) : Decidable (st.hasIndex row col) := by
  unfold State.hasIndex; infer_instance

/-- `SourceCodeModel::data`, column 0 = source text, column 1 = line
number, columns ≥ 2 the cost types. -/
def State.data (st : State) (row col : Int) (role : Role) : QVariant :=
  if ¬ st.hasIndex row col then .empty
  else if row > (st.sourceCode.length : Int) ∨ row < 0 then .empty
  else
    let line := st.sourceCode.getD row.toNat ""
    if role = .display ∨ role = .toolTip ∨ role = .cost ∨ role = .totalCost then
      if col = 0 then .ofString line
      else if col = 1 then .ofInt (row + st.lineOffset)
      else if col - (COLUMN_COUNT : Int) < (st.numTypes : Int) then
        let c := st.costs.cost (col - (COLUMN_COUNT : Int)).toNat (row + st.lineOffset)
        let t := st.costs.totalCost (col - (COLUMN_COUNT : Int)).toNat
        if role = .cost then .ofInt c
        else if role = .totalCost then .ofInt t
        else .ofString (formatCostRelative c t)
      else .empty
    else if role = .highlight then
      .ofBool (decide (row + st.lineOffset = st.highlightLine))
    else if role = .rainbowLineNumber then
      if row + st.lineOffset ∈ st.validLineNumbers then .ofInt (row + st.lineOffset)
      else .ofInt (-1)
    else .empty

/-- The cost contribution of a single disassembly entry to line `L` for
cost type `T`: zero for entries with source line 0, for entries of other
lines, and for addresses with no recorded location cost; otherwise the
recorded self-cost of type `T`. -/
def entryCost (e : EntryData) (T : Nat) (L : Int) (l : DisassemblyEntry) : Int :=
  if l.sourceCodeLine = 0 then 0
  else if l.sourceCodeLine = L then
    match lookupAddr e.offsetMap l.addr with
    | some lc => lc.selfCost.getD T 0
    | none => 0
  else 0

/-- The sum of the per-entry cost contributions of a disassembly to line
`L` for cost type `T`. -/
def sumCosts (e : EntryData) (T : Nat) (L : Int) (ls : List DisassemblyEntry) : Int :=
  (ls.map (entryCost e T L)).sum

theorem addVec_getD (w v : List Int) (T : Nat) :
    (addVec w v).getD T 0 = w.getD T 0 + v.getD T 0 := by
  induction w generalizing v T with
  | nil => simp [addVec]
  | cons x xs ih =>
    cases v with
    | nil => simp [addVec]
    | cons y ys =>
      cases T with
      | zero => simp [addVec]
      | succ n => simpa [addVec] using ih ys n

theorem lookupLine_accumulate (vals : List (Int × List Int)) (id : Int) (v : List Int)
    (T : Nat) (L : Int) :
    (match lookupLine (accumulate vals id v) L with
     | some w => w.getD T 0
     | none => 0)
    = (match lookupLine vals L with
       | some w => w.getD T 0
       | none => 0) + (if id = L then v.getD T 0 else 0) := by
  induction vals with
  | nil =>
    by_cases h : id = L <;> simp [accumulate, lookupLine, h]
  | cons p rest ih =>
    obtain ⟨k, w⟩ := p
    by_cases hk : k = id
    · subst hk
      by_cases hL : k = L
      · subst hL
        simpa [accumulate, lookupLine] using addVec_getD w v T
      · simp [accumulate, lookupLine, hL]
    · by_cases hL : k = L
      · subst hL
        have hik : id ≠ k := fun h => hk h.symm
        simp [accumulate, lookupLine, hk, hik]
      · simp only [accumulate, if_neg hk, lookupLine, if_neg hL]
        exact ih

theorem cost_add (c : Costs) (id : Int) (v : List Int) (T : Nat) (L : Int) :
    (c.add id v).cost T L = c.cost T L + (if id = L then v.getD T 0 else 0) := by
  unfold Costs.add Costs.cost
  exact lookupLine_accumulate c.values id v T L

theorem cost_initFrom (s : SelfCosts) (T : Nat) (L : Int) :
    (Costs.initFrom s).cost T L = 0 := by
  simp [Costs.initFrom, Costs.cost, lookupLine]

theorem scanStep_zero (e : EntryData) (s : ScanState) (l : DisassemblyEntry)
    (h : l.sourceCodeLine = 0) : scanStep e s l = s := by
  simp [scanStep, h]

theorem scan_filter (e : EntryData) (ls : List DisassemblyEntry) :
    ∀ s : ScanState,
      ls.foldl (scanStep e) s
        = (ls.filter (fun l => l.sourceCodeLine ≠ 0)).foldl (scanStep e) s := by
  induction ls with
  | nil => intro s; rfl
  | cons l ls ih =>
    intro s
    by_cases h : l.sourceCodeLine = 0
    · rw [List.foldl_cons, scanStep_zero e s l h, List.filter_cons_of_neg (by simp [h]), ih]
    · rw [List.foldl_cons, List.filter_cons_of_pos (by simp [h]), List.foldl_cons, ih]

theorem scan_costs (e : EntryData) (ls : List DisassemblyEntry) (T : Nat) (L : Int) :
    ∀ s : ScanState,
      (ls.foldl (scanStep e) s).costs.cost T L = s.costs.cost T L + sumCosts e T L ls := by
  induction ls with
  | nil => intro s; simp [sumCosts]
  | cons l ls ih =>
    intro s
    rw [List.foldl_cons, ih]
    have hstep : (scanStep e s l).costs.cost T L = s.costs.cost T L + entryCost e T L l := by
      by_cases h0 : l.sourceCodeLine = 0
      · simp [scanStep, entryCost, h0]
      · cases hfind : lookupAddr e.offsetMap l.addr with
        | none => simp [scanStep, entryCost, h0, hfind]
        | some lc => simp [scanStep, entryCost, h0, hfind, cost_add]
    rw [hstep]
    simp only [sumCosts, List.map_cons, List.sum_cons]
    ring

theorem mem_insertSet (v : List Int) (x y : Int) :
    y ∈ insertSet v x ↔ y ∈ v ∨ y = x := by
  unfold insertSet
  by_cases h : x ∈ v
  · rw [if_pos h]
    exact ⟨Or.inl, fun hy => hy.elim id (fun hyx => hyx ▸ h)⟩
  · rw [if_neg h]
    simp

theorem scan_valid_mem (e : EntryData) (ls : List DisassemblyEntry) (L : Int) :
    ∀ s : ScanState,
      L ∈ (ls.foldl (scanStep e) s).valid
        ↔ L ∈ s.valid ∨ ∃ l ∈ ls, l.sourceCodeLine = L ∧ L ≠ 0 := by
  induction ls with
  | nil => intro s; simp
  | cons l ls ih =>
    intro s
    rw [List.foldl_cons, ih]
    by_cases h0 : l.sourceCodeLine = 0
    · rw [scanStep_zero e s l h0]
      constructor
      · rintro (h | ⟨l', hl', hline, hne⟩)
        · exact Or.inl h
        · exact Or.inr ⟨l', List.mem_cons_of_mem _ hl', hline, hne⟩
      · rintro (h | ⟨l', hl', hline, hne⟩)
        · exact Or.inl h
        · rcases List.mem_cons.mp hl' with rfl | hl''
          · exact absurd (hline.symm.trans h0) hne
          · exact Or.inr ⟨l', hl'', hline, hne⟩
    · have hv : (scanStep e s l).valid = insertSet s.valid l.sourceCodeLine := by
        simp [scanStep, h0]
      rw [hv, mem_insertSet]
      constructor
      · rintro ((h | rfl) | ⟨l', hl', hline, hne⟩)
        · exact Or.inl h
        · exact Or.inr ⟨l, List.mem_cons_self l ls, rfl, h0⟩
        · exact Or.inr ⟨l', List.mem_cons_of_mem _ hl', hline, hne⟩
      · rintro (h | ⟨l', hl', hline, hne⟩)
        · exact Or.inl (Or.inl h)
        · rcases List.mem_cons.mp hl' with rfl | hl''
          · exact Or.inl (Or.inr hline.symm)
          · exact Or.inr ⟨l', hl'', hline, hne⟩

theorem scan_minLine_le_init (e : EntryData) (ls : List DisassemblyEntry) :
    ∀ s : ScanState, (ls.foldl (scanStep e) s).minLine ≤ s.minLine := by
  induction ls with
  | nil => intro s; exact le_refl _
  | cons l ls ih =>
    intro s
    rw [List.foldl_cons]
    refine le_trans (ih _) ?_
    by_cases h0 : l.sourceCodeLine = 0
    · rw [scanStep_zero e s l h0]
    · simp only [scanStep, if_neg h0]
      split <;> omega

theorem scan_minLine_le_mem (e : EntryData) (l : DisassemblyEntry)
    (h0 : l.sourceCodeLine ≠ 0) (ls : List DisassemblyEntry) :
    ∀ s : ScanState, l ∈ ls → (ls.foldl (scanStep e) s).minLine ≤ l.sourceCodeLine := by
  induction ls with
  | nil => intro s hl; cases hl
  | cons a ls ih =>
    intro s hl
    rw [List.foldl_cons]
    rcases List.mem_cons.mp hl with rfl | hl'
    · refine le_trans (scan_minLine_le_init e ls _) ?_
      simp only [scanStep, if_neg h0]
      split <;> omega
    · exact ih _ hl'

theorem scan_minLine_cases (e : EntryData) (ls : List DisassemblyEntry) :
    ∀ s : ScanState, (ls.foldl (scanStep e) s).minLine = s.minLine
      ∨ ∃ l ∈ ls, l.sourceCodeLine ≠ 0
          ∧ (ls.foldl (scanStep e) s).minLine = l.sourceCodeLine := by
  induction ls with
  | nil => intro s; exact Or.inl rfl
  | cons a ls ih =>
    intro s
    rw [List.foldl_cons]
    by_cases ha : a.sourceCodeLine = 0
    · rw [scanStep_zero e s a ha]
      rcases ih s with h | ⟨l, hl, h0, h⟩
      · exact Or.inl h
      · exact Or.inr ⟨l, List.mem_cons_of_mem a hl, h0, h⟩
    · rcases ih (scanStep e s a) with h | ⟨l, hl, h0, h⟩
      · have hm : (scanStep e s a).minLine
            = if a.sourceCodeLine < s.minLine then a.sourceCodeLine else s.minLine := by
          simp [scanStep, ha]
        rw [hm] at h
        by_cases hlt : a.sourceCodeLine < s.minLine
        · rw [if_pos hlt] at h
          exact Or.inr ⟨a, List.mem_cons_self a ls, ha, h⟩
        · rw [if_neg hlt] at h
          exact Or.inl h
      · exact Or.inr ⟨l, List.mem_cons_of_mem a hl, h0, h⟩

theorem scan_minLine_eq (e : EntryData) (ls : List DisassemblyEntry) (s : ScanState) (m : Int)
    (hsm : m ≤ s.minLine)
    (hmem : ∃ l ∈ ls, l.sourceCodeLine = m ∧ m ≠ 0)
    (hmin : ∀ l ∈ ls, l.sourceCodeLine ≠ 0 → m ≤ l.sourceCodeLine) :
    (ls.foldl (scanStep e) s).minLine = m := by
  obtain ⟨l, hl, hline, hne⟩ := hmem
  have h1 : (ls.foldl (scanStep e) s).minLine ≤ m := by
    have := scan_minLine_le_mem e l (by rw [hline]; exact hne) ls s hl
    rwa [hline] at this
  have h2 : m ≤ (ls.foldl (scanStep e) s).minLine := by
    rcases scan_minLine_cases e ls s with h | ⟨l', hl', h0, h⟩
    · rw [h]; exact hsm
    · rw [h]; exact hmin l' hl' h0
  omega

theorem scan_maxLine_ge_init (e : EntryData) (ls : List DisassemblyEntry) :
    ∀ s : ScanState, s.maxLine ≤ (ls.foldl (scanStep e) s).maxLine := by
  induction ls with
  | nil => intro s; exact le_refl _
  | cons l ls ih =>
    intro s
    rw [List.foldl_cons]
    refine le_trans ?_ (ih _)
    by_cases h0 : l.sourceCodeLine = 0
    · rw [scanStep_zero e s l h0]
    · simp only [scanStep, if_neg h0]
      split <;> omega

theorem scan_maxLine_ge_mem (e : EntryData) (l : DisassemblyEntry)
    (h0 : l.sourceCodeLine ≠ 0) (ls : List DisassemblyEntry) :
    ∀ s : ScanState, l ∈ ls → l.sourceCodeLine ≤ (ls.foldl (scanStep e) s).maxLine := by
  induction ls with
  | nil => intro s hl; cases hl
  | cons a ls ih =>
    intro s hl
    rw [List.foldl_cons]
    rcases List.mem_cons.mp hl with rfl | hl'
    · refine le_trans ?_ (scan_maxLine_ge_init e ls _)
      simp only [scanStep, if_neg h0]
      split <;> omega
    · exact ih _ hl'

theorem scan_maxLine_cases (e : EntryData) (ls : List DisassemblyEntry) :
    ∀ s : ScanState, (ls.foldl (scanStep e) s).maxLine = s.maxLine
      ∨ ∃ l ∈ ls, l.sourceCodeLine ≠ 0
          ∧ (ls.foldl (scanStep e) s).maxLine = l.sourceCodeLine := by
  induction ls with
  | nil => intro s; exact Or.inl rfl
  | cons a ls ih =>
    intro s
    rw [List.foldl_cons]
    by_cases ha : a.sourceCodeLine = 0
    · rw [scanStep_zero e s a ha]
      rcases ih s with h | ⟨l, hl, h0, h⟩
      · exact Or.inl h
      · exact Or.inr ⟨l, List.mem_cons_of_mem a hl, h0, h⟩
    · rcases ih (scanStep e s a) with h | ⟨l, hl, h0, h⟩
      · have hm : (scanStep e s a).maxLine
            = if a.sourceCodeLine > s.maxLine then a.sourceCodeLine else s.maxLine := by
          simp [scanStep, ha]
        rw [hm] at h
        by_cases hgt : a.sourceCodeLine > s.maxLine
        · rw [if_pos hgt] at h
          exact Or.inr ⟨a, List.mem_cons_self a ls, ha, h⟩
        · rw [if_neg hgt] at h
          exact Or.inl h
      · exact Or.inr ⟨l, List.mem_cons_of_mem a hl, h0, h⟩

theorem scan_maxLine_eq (e : EntryData) (ls : List DisassemblyEntry) (s : ScanState) (M : Int)
    (hsM : s.maxLine ≤ M)
    (hmem : ∃ l ∈ ls, l.sourceCodeLine = M ∧ M ≠ 0)
    (hmax : ∀ l ∈ ls, l.sourceCodeLine ≠ 0 → l.sourceCodeLine ≤ M) :
    (ls.foldl (scanStep e) s).maxLine = M := by
  obtain ⟨l, hl, hline, hne⟩ := hmem
  have h1 : M ≤ (ls.foldl (scanStep e) s).maxLine := by
    have := scan_maxLine_ge_mem e l (by rw [hline]; exact hne) ls s hl
    rwa [hline] at this
  have h2 : (ls.foldl (scanStep e) s).maxLine ≤ M := by
    rcases scan_maxLine_cases e ls s with h | ⟨l', hl', h0, h⟩
    · rw [h]; exact hsM
    · rw [h]; exact hmax l' hl' h0
  omega

theorem qtLineAt_eq (lines : List String) (i : Int) (hi : 0 ≤ i) :
    qtLineAt lines i = lines.get? i.toNat := by
  unfold qtLineAt
  by_cases h : 0 ≤ i ∧ i.toNat < lines.length
  · rw [dif_pos h, List.get?_eq_get h.2]
  · rw [dif_neg h]
    have hlen : lines.length ≤ i.toNat := by omega
    exact (List.get?_eq_none.mpr hlen).symm

theorem sliceRowsAux_isSome (lines : List String) (n : Nat) :
    ∀ i : Int, 0 ≤ i →
      ((sliceRowsAux lines n i).isSome ↔ (n = 0 ∨ i + n ≤ (lines.length : Int))) := by
  induction n with
  | zero =>
    intro i hi
    simp [sliceRowsAux]
  | succ n ih =>
    intro i hi
    rw [sliceRowsAux, qtLineAt_eq lines i hi]
    cases hq : lines.get? i.toNat with
    | none =>
      have h1 : lines.length ≤ i.toNat := List.get?_eq_none.mp hq
      simp only [Option.isSome_none, Bool.false_eq_true, false_iff]
      omega
    | some s =>
      have h1 : i.toNat < lines.length := by
        by_contra hc
        rw [List.get?_eq_none.mpr (by omega)] at hq
        cases hq
      have h2 := ih (i + 1) (by omega)
      cases hr : sliceRowsAux lines n (i + 1) with
      | none =>
        rw [hr] at h2
        simp only [Option.isSome_none, Bool.false_eq_true, false_iff] at h2 ⊢
        omega
      | some rest =>
        rw [hr] at h2
        simp only [Option.isSome_some, true_iff] at h2 ⊢
        omega

theorem sliceRowsAux_get (lines : List String) (n : Nat) :
    ∀ (i : Int) (out : List String), 0 ≤ i → sliceRowsAux lines n i = some out →
      out.length = n ∧ ∀ k : Nat, k < n → out.get? k = lines.get? (i.toNat + k) := by
  induction n with
  | zero =>
    intro i out hi h
    rw [sliceRowsAux] at h
    injection h with h
    subst h
    exact ⟨rfl, fun k hk => absurd hk (by omega)⟩
  | succ n ih =>
    intro i out hi h
    rw [sliceRowsAux] at h
    cases hq : qtLineAt lines i with
    | none => rw [hq] at h; cases h
    | some s =>
      rw [hq] at h
      cases hr : sliceRowsAux lines n (i + 1) with
      | none => rw [hr] at h; cases h
      | some rest =>
        rw [hr] at h
        injection h with h
        subst h
        obtain ⟨hlen, hget⟩ := ih (i + 1) rest (by omega) hr
        refine ⟨by simp [hlen], ?_⟩
        intro k hk
        cases k with
        | zero =>
          rw [qtLineAt_eq lines i hi] at hq
          simpa using hq.symm
        | succ k =>
          have h3 := hget k (by omega)
          have h4 : (i + 1).toNat + k = i.toNat + (k + 1) := by omega
          rw [h4] at h3
          simpa using h3

/-- The scan state produced by the instruction loop of `setDisassembly`
on a given model state and disassembly output. -/
def scanOf (st : State) (d : DisassemblyOutput) : ScanState :=
  d.disassemblyLines.foldl
    (scanStep (st.callerCalleeResults.entry d.symbol))
    { maxLine := 0, minLine := INT_MAX
      costs := Costs.initFrom st.callerCalleeResults.selfCosts, valid := [] }

theorem setDisassembly_some_eq (st : State) (d : DisassemblyOutput) (content : String)
    (hname : d.sourceFileName ≠ "") :
    setDisassembly st d (some content)
      = match sliceRows (splitLines content) ((scanOf st d).minLine - 1)
              (scanOf st d).maxLine with
        | none => none
        | some slice =>
            some { st with
                    validLineNumbers := (scanOf st d).valid
                    costs := (scanOf st d).costs
                    lineOffset := (scanOf st d).minLine - 1
                    sourceCode := st.sourceCode ++ (d.symbol.prettySymbol :: slice) } := by
  unfold setDisassembly scanOf
  rw [if_neg hname]

theorem setDisassembly_some_inv (st : State) (d : DisassemblyOutput) (content : String)
    (st' : State)
    (hname : d.sourceFileName ≠ "")
    (h : setDisassembly st d (some content) = some st') :
    ∃ slice,
      sliceRows (splitLines content) ((scanOf st d).minLine - 1) (scanOf st d).maxLine
        = some slice
      ∧ st' = { st with
                 validLineNumbers := (scanOf st d).valid
                 costs := (scanOf st d).costs
                 lineOffset := (scanOf st d).minLine - 1
                 sourceCode := st.sourceCode ++ (d.symbol.prettySymbol :: slice) } := by
  rw [setDisassembly_some_eq st d content hname] at h
  cases hs : sliceRows (splitLines content) ((scanOf st d).minLine - 1) (scanOf st d).maxLine with
  | none => rw [hs] at h; cases h
  | some slice =>
    rw [hs] at h
    injection h with h
    exact ⟨slice, rfl, h.symm⟩

/-!
Concrete data used by the witnesses and counterexamples, following the
scenario of the spec: a single cost type, entries at addresses `0x10` and
`0x14` both on line 5 with self-costs 2 and 3, an entry at `0x18` on
line 7 with no recorded cost, and an unresolved entry at `0x1c`
(source line 0).
-/

def sampleSymbol : Symbol := ⟨"sym"⟩

def sampleResults : CallerCalleeResults :=
  { entries := [(sampleSymbol, ⟨[(0x10, ⟨[2]⟩), (0x14, ⟨[3]⟩)]⟩)]
    selfCosts := { typeNames := ["cycles"], totalCosts := [100] } }

def sampleState : State :=
  { sourceCode := [], validLineNumbers := [], costs := ⟨[], [], []⟩, lineOffset := 0
    highlightLine := 0, numTypes := 1, callerCalleeResults := sampleResults, sysroot := "" }

def sampleDisassembly : DisassemblyOutput :=
  { symbol := sampleSymbol, sourceFileName := "main.cpp"
    disassemblyLines := [⟨0x10, 5⟩, ⟨0x14, 5⟩, ⟨0x18, 7⟩, ⟨0x1c, 0⟩] }

def sampleContent : String := "a\nb\nc\nd\ne\nf\ng"

def sampleLoaded : State :=
  (setDisassembly sampleState sampleDisassembly (some sampleContent)).getD sampleState

/-- C1: during a successful load, costs aggregate additively per source
line: for every line `L` and cost type `T`, the accumulated cost at
`(L, T)` is the sum of the self-costs recorded for the addresses of all
disassembly entries mapping to `L`, each qualifying entry added once; and
entries with source line 0 are skipped entirely — the whole load behaves
as if they were absent, so they contribute neither to the cost table nor
to the min/max line tracking. -/
theorem C1_additive_aggregation (st : State) (d : DisassemblyOutput) (content : String)
    (st' : State) (T : Nat) (L : Int)
    (hname : d.sourceFileName ≠ "")
    (h : setDisassembly st d (some content) = some st') :
    st'.costs.cost T L
      = sumCosts (st.callerCalleeResults.entry d.symbol) T L d.disassemblyLines
    ∧ setDisassembly st d (some content)
      = setDisassembly st
          { d with disassemblyLines :=
              d.disassemblyLines.filter (fun l => l.sourceCodeLine ≠ 0) }
          (some content) := by
  obtain ⟨slice, hs, hst⟩ := setDisassembly_some_inv st d content st' hname h
  constructor
  · rw [hst]
    show (scanOf st d).costs.cost T L = _
    unfold scanOf
    rw [scan_costs]
    rw [cost_initFrom]
    ring
  · rw [setDisassembly_some_eq st d content hname,
        setDisassembly_some_eq st
          { d with disassemblyLines :=
              d.disassemblyLines.filter (fun l => l.sourceCodeLine ≠ 0) } content hname]
    unfold scanOf
    rw [← scan_filter]

/-- Witness for C1 at the spec's scenario: the two entries on line 5 with
costs 2 and 3 aggregate to 5, and the load equals the load of the
line-0-filtered disassembly. -/
theorem C1_witness :
    sampleLoaded.costs.cost 0 5
        = sumCosts (sampleState.callerCalleeResults.entry sampleDisassembly.symbol) 0 5
            sampleDisassembly.disassemblyLines
    ∧ setDisassembly sampleState sampleDisassembly (some sampleContent)
      = setDisassembly sampleState
          { sampleDisassembly with
              disassemblyLines :=
                sampleDisassembly.disassemblyLines.filter (fun l => l.sourceCodeLine ≠ 0) }
          (some sampleContent) :=
  C1_additive_aggregation sampleState sampleDisassembly sampleContent sampleLoaded 0 5
    (by decide) (by decide)

/-- C2: `setDisassembly` with an empty source file name, or with a file
that cannot be opened, is a complete no-op: it returns the prior state
unchanged, so row count, column count, every cell value, the valid-line
set, the cost table and the line offset are identical to their pre-call
values. -/
theorem C2_noop_on_bad_input (st : State) (d : DisassemblyOutput) (file : Option String)
    (h : d.sourceFileName = "" ∨ file = none) :
    setDisassembly st d file = some st
    ∧ ∀ st', setDisassembly st d file = some st' →
        st'.rowCount = st.rowCount
        ∧ st'.columnCount = st.columnCount
        ∧ (∀ row col role, st'.data row col role = st.data row col role)
        ∧ st'.validLineNumbers = st.validLineNumbers
        ∧ st'.costs = st.costs
        ∧ st'.lineOffset = st.lineOffset := by
  have hnoop : setDisassembly st d file = some st := by
    rcases h with h | h
    · unfold setDisassembly
      rw [if_pos h]
    · subst h
      unfold setDisassembly
      by_cases hn : d.sourceFileName = ""
      · rw [if_pos hn]
      · rw [if_neg hn]
  refine ⟨hnoop, ?_⟩
  intro st' h'
  rw [hnoop] at h'
  injection h' with h'
  subst h'
  exact ⟨rfl, rfl, fun _ _ _ => rfl, rfl, rfl, rfl⟩

/-- Witness for C2: both bad inputs (empty file name; unopenable file)
at the sample state. -/
theorem C2_witness :
    setDisassembly sampleState { sampleDisassembly with sourceFileName := "" }
        (some sampleContent) = some sampleState
    ∧ setDisassembly sampleState sampleDisassembly none = some sampleState :=
  ⟨(C2_noop_on_bad_input sampleState { sampleDisassembly with sourceFileName := "" }
      (some sampleContent) (Or.inl rfl)).1,
   (C2_noop_on_bad_input sampleState sampleDisassembly none (Or.inr rfl)).1⟩

/-- C3: after a successful load, the line offset is the minimum non-zero
referenced source line minus 1, `lineForIndex` maps row `r` to
`r + offset`, row 1 maps to the minimum referenced line, and consecutive
rows map to consecutive line numbers.  `m` is characterised as the
minimum non-zero source line referenced by the disassembly entries. -/
theorem C3_line_offset (st : State) (d : DisassemblyOutput) (content : String) (st' : State)
    (m : Int)
    (hname : d.sourceFileName ≠ "")
    (hbound : ∀ l ∈ d.disassemblyLines, l.sourceCodeLine ≤ INT_MAX)
    (hmem : ∃ l ∈ d.disassemblyLines, l.sourceCodeLine = m ∧ m ≠ 0)
    (hmin : ∀ l ∈ d.disassemblyLines, l.sourceCodeLine ≠ 0 → m ≤ l.sourceCodeLine)
    (h : setDisassembly st d (some content) = some st') :
    st'.lineOffset = m - 1
    ∧ st'.lineForIndex 1 = m
    ∧ (∀ r : Int, st'.lineForIndex r = r + st'.lineOffset)
    ∧ (∀ r : Int, st'.lineForIndex (r + 1) = st'.lineForIndex r + 1) := by
  obtain ⟨slice, hs, hst⟩ := setDisassembly_some_inv st d content st' hname h
  have hminEq : (scanOf st d).minLine = m := by
    unfold scanOf
    apply scan_minLine_eq
    · show m ≤ INT_MAX
      obtain ⟨l, hl, hline, _⟩ := hmem
      have := hbound l hl
      omega
    · exact hmem
    · exact hmin
  have hoff : st'.lineOffset = m - 1 := by
    rw [hst]
    show (scanOf st d).minLine - 1 = m - 1
    rw [hminEq]
  refine ⟨hoff, ?_, fun r => rfl, fun r => ?_⟩
  · unfold State.lineForIndex
    rw [hoff]
    ring
  · unfold State.lineForIndex
    ring

/-- Witness for C3 at the spec's scenario: minimum referenced line 5,
offset 4, row 1 ↦ line 5. -/
theorem C3_witness :
    sampleLoaded.lineOffset = 5 - 1
    ∧ sampleLoaded.lineForIndex 1 = 5
    ∧ (∀ r : Int, sampleLoaded.lineForIndex r = r + sampleLoaded.lineOffset)
    ∧ (∀ r : Int, sampleLoaded.lineForIndex (r + 1) = sampleLoaded.lineForIndex r + 1) :=
  C3_line_offset sampleState sampleDisassembly sampleContent sampleLoaded 5
    (by decide) (by decide) (by decide) (by decide) (by decide)

def sampleLoadedTwice : State :=
  (setDisassembly sampleLoaded sampleDisassembly (some sampleContent)).getD sampleState

/-- Counterexample to C4 as stated: `setDisassembly` never clears
`m_sourceCode`, it only appends, so a second successful load of the same
disassembly (minimum referenced line 5, maximum 7) leaves the displayed
list with 8 rows, not `7 − 5 + 2 = 4`. -/
theorem C4_counterexample :
    sampleLoaded.sourceCode.length = 4
    ∧ setDisassembly sampleLoaded sampleDisassembly (some sampleContent)
        = some sampleLoadedTwice
    ∧ sampleLoadedTwice.sourceCode.length = 8
    ∧ sampleLoadedTwice.sourceCode.length ≠ 7 - 5 + 2 := by decide

/-- C4 (amended): after a successful load starting from an empty
displayed list, the list holds exactly `max − min + 2` rows: row 0 is the
symbol's label and row `r` (for `1 ≤ r ≤ max − min + 1`) is the
newline-split file's line at 0-based index `(min − 1) + (r − 1)`.  In
general the load appends the header and window to the pre-existing list
instead of rebuilding it.  `m`/`M` are characterised as the minimum and
maximum non-zero source lines referenced by the disassembly entries. -/
theorem C4_amended_window (st : State) (d : DisassemblyOutput) (content : String)
    (st' : State) (m M : Int)
    (hempty : st.sourceCode = [])
    (hname : d.sourceFileName ≠ "")
    (hb : ∀ l ∈ d.disassemblyLines, 0 ≤ l.sourceCodeLine ∧ l.sourceCodeLine ≤ INT_MAX)
    (hmemm : ∃ l ∈ d.disassemblyLines, l.sourceCodeLine = m ∧ m ≠ 0)
    (hmin : ∀ l ∈ d.disassemblyLines, l.sourceCodeLine ≠ 0 → m ≤ l.sourceCodeLine)
    (hmemM : ∃ l ∈ d.disassemblyLines, l.sourceCodeLine = M ∧ M ≠ 0)
    (hmax : ∀ l ∈ d.disassemblyLines, l.sourceCodeLine ≠ 0 → l.sourceCodeLine ≤ M)
    (h : setDisassembly st d (some content) = some st') :
    ((st'.sourceCode.length : Int) = M - m + 2)
    ∧ st'.sourceCode.get? 0 = some d.symbol.prettySymbol
    ∧ ∀ r : Nat, 1 ≤ r → (r : Int) ≤ M - m + 1 →
        st'.sourceCode.get? r = (splitLines content).get? ((m.toNat - 1) + (r - 1)) := by
  have hm1 : 1 ≤ m := by
    obtain ⟨l, hl, hline, hne⟩ := hmemm
    have := (hb l hl).1
    omega
  have hmM : m ≤ M := by
    obtain ⟨l, hl, hline, hne⟩ := hmemm
    have := hmax l hl (by rw [hline]; exact hne)
    omega
  have hminEq : (scanOf st d).minLine = m := by
    unfold scanOf
    apply scan_minLine_eq
    · show m ≤ INT_MAX
      obtain ⟨l, hl, hline, _⟩ := hmemm
      have := (hb l hl).2
      omega
    · exact hmemm
    · exact hmin
  have hmaxEq : (scanOf st d).maxLine = M := by
    unfold scanOf
    apply scan_maxLine_eq
    · show (0 : Int) ≤ M
      omega
    · exact hmemM
    · exact hmax
  obtain ⟨slice, hs, hst⟩ := setDisassembly_some_inv st d content st' hname h
  rw [hminEq, hmaxEq] at hs
  unfold sliceRows at hs
  obtain ⟨hlen, hget⟩ :=
    sliceRowsAux_get (splitLines content) (M - (m - 1)).toNat (m - 1) slice (by omega) hs
  have hsc : st'.sourceCode = d.symbol.prettySymbol :: slice := by
    rw [hst]
    show st.sourceCode ++ (d.symbol.prettySymbol :: slice) = _
    rw [hempty, List.nil_append]
  refine ⟨?_, ?_, ?_⟩
  · rw [hsc, List.length_cons, hlen]
    omega
  · rw [hsc]
    rfl
  · intro r hr1 hr2
    rw [hsc]
    cases r with
    | zero => omega
    | succ k =>
      rw [List.get?_cons_succ]
      have hk : k < (M - (m - 1)).toNat := by omega
      have h3 := hget k hk
      have h4 : (m - 1).toNat + k = m.toNat - 1 + (k + 1 - 1) := by omega
      rw [h4] at h3
      exact h3

/-- Witness for C4 (amended) at the spec's scenario: 4 rows, row 0 the
label, rows 1–3 the file's lines 5–7. -/
theorem C4_witness :
    ((sampleLoaded.sourceCode.length : Int) = 7 - 5 + 2)
    ∧ sampleLoaded.sourceCode.get? 0 = some sampleDisassembly.symbol.prettySymbol
    ∧ ∀ r : Nat, 1 ≤ r → (r : Int) ≤ 7 - 5 + 1 →
        sampleLoaded.sourceCode.get? r
          = (splitLines sampleContent).get? (((5 : Int).toNat - 1) + (r - 1)) :=
  C4_amended_window sampleState sampleDisassembly sampleContent sampleLoaded 5 7
    (by decide) (by decide) (by decide) (by decide) (by decide) (by decide) (by decide)
    (by decide)

def noQualDisassembly : DisassemblyOutput :=
  { symbol := sampleSymbol, sourceFileName := "main.cpp"
    disassemblyLines := [⟨0x1c, 0⟩] }

def preState : State :=
  { sampleState with sourceCode := ["x"], validLineNumbers := [5], lineOffset := 4 }

/-- Counterexample to C5 as stated: with no qualifying source line at
all (one entry, source line 0) a release-build load is not a no-op — the
prior valid-line set `{5}` is wiped and the header row is appended. -/
theorem C5_counterexample :
    noQualDisassembly.disassemblyLines.filter (fun l => l.sourceCodeLine ≠ 0) = []
    ∧ setDisassembly preState noQualDisassembly (some sampleContent) ≠ some preState
    ∧ ((setDisassembly preState noQualDisassembly (some sampleContent)).getD
        preState).validLineNumbers = []
    ∧ preState.validLineNumbers = [5] := by decide

/-- C5 (amended): `Q_ASSERT` is disabled in release builds, so when the
filtered disassembly has no qualifying line the load is not a defensive
no-op: it completes, clearing the valid-line set, resetting the cost
table, setting the line offset to `INT_MAX − 1` and appending the symbol
header row (only — the window loop runs zero times); prior derived state
is not retained. -/
theorem C5_release_not_noop (st : State) (d : DisassemblyOutput) (content : String)
    (hname : d.sourceFileName ≠ "")
    (hq : d.disassemblyLines.filter (fun l => l.sourceCodeLine ≠ 0) = []) :
    setDisassembly st d (some content)
      = some { st with
                validLineNumbers := []
                costs := Costs.initFrom st.callerCalleeResults.selfCosts
                lineOffset := INT_MAX - 1
                sourceCode := st.sourceCode ++ [d.symbol.prettySymbol] } := by
  rw [setDisassembly_some_eq st d content hname]
  have hscan : scanOf st d
      = { maxLine := 0, minLine := INT_MAX
          costs := Costs.initFrom st.callerCalleeResults.selfCosts, valid := [] } := by
    unfold scanOf
    rw [scan_filter, hq]
    rfl
  rw [hscan]
  rfl

/-- Witness for C5 (amended): a one-entry disassembly whose only entry
has source line 0, loaded over a state with prior valid lines. -/
theorem C5_witness :
    setDisassembly preState noQualDisassembly (some sampleContent)
      = some { preState with
                validLineNumbers := []
                costs := Costs.initFrom preState.callerCalleeResults.selfCosts
                lineOffset := INT_MAX - 1
                sourceCode := preState.sourceCode ++ [noQualDisassembly.symbol.prettySymbol] } :=
  C5_release_not_noop preState noQualDisassembly sampleContent (by decide) (by decide)

/-- Counterexample to C6 as stated: after a load with one cost type set,
`clear()` leaves `columnCount() = 3` (not 2), and the valid-line set,
costs and offset are untouched rather than cleared. -/
theorem C6_counterexample :
    sampleLoaded.clear.rowCount = 0
    ∧ sampleLoaded.clear.columnCount = 3
    ∧ sampleLoaded.clear.columnCount ≠ 2
    ∧ sampleLoaded.clear.validLineNumbers = [5, 7]
    ∧ sampleLoaded.clear.validLineNumbers ≠ []
    ∧ sampleLoaded.clear.lineOffset = 4
    ∧ sampleLoaded.clear.lineOffset ≠ 0
    ∧ sampleLoaded.clear.costs.cost 0 5 = 5 := by decide

/-- C6 (amended): `clear()` empties only the displayed-line list, so
`rowCount()` becomes 0; the cost-type count (hence
`columnCount() = 2 + numTypes`), the valid-line set, the accumulated
costs and the line offset are left as they were. -/
theorem C6_clear (st : State) :
    st.clear = { st with sourceCode := [] }
    ∧ st.clear.rowCount = 0
    ∧ st.clear.columnCount = 2 + st.numTypes
    ∧ st.clear.validLineNumbers = st.validLineNumbers
    ∧ st.clear.costs = st.costs
    ∧ st.clear.lineOffset = st.lineOffset :=
  ⟨rfl, rfl, rfl, rfl, rfl, rfl⟩

/-- Counterexample to C7 as stated: `setCallerCalleeResults` emits reset
notifications but clears no data — after a load, re-setting the cost
context leaves 4 displayed rows (not 0) and the accumulated cost 5 at
line 5 (not cleared). -/
theorem C7_counterexample :
    (sampleLoaded.setCallerCalleeResults sampleResults).rowCount = 4
    ∧ (sampleLoaded.setCallerCalleeResults sampleResults).rowCount ≠ 0
    ∧ (sampleLoaded.setCallerCalleeResults sampleResults).costs.cost 0 5 = 5
    ∧ (sampleLoaded.setCallerCalleeResults sampleResults).costs.cost 0 5 ≠ 0 := by decide

/-- C7 (amended): `setCallerCalleeResults` changes only the active cost
context and the cost-type count; afterwards
`columnCount() = 2 + newCount`, while the displayed rows, the accumulated
costs, the valid-line set and the offset are left untouched (the
begin/end reset-model calls are notifications, not data clears). -/
theorem C7_set_results (st : State) (results : CallerCalleeResults) :
    st.setCallerCalleeResults results
      = { st with callerCalleeResults := results
                  numTypes := results.selfCosts.numTypes }
    ∧ (st.setCallerCalleeResults results).columnCount = 2 + results.selfCosts.numTypes
    ∧ (st.setCallerCalleeResults results).rowCount = st.rowCount
    ∧ (st.setCallerCalleeResults results).sourceCode = st.sourceCode
    ∧ (st.setCallerCalleeResults results).costs = st.costs
    ∧ (st.setCallerCalleeResults results).validLineNumbers = st.validLineNumbers
    ∧ (st.setCallerCalleeResults results).lineOffset = st.lineOffset :=
  ⟨rfl, rfl, rfl, rfl, rfl, rfl, rfl⟩

theorem data_rainbow_eval (st : State) (r col : Int) (hidx : st.hasIndex r col) :
    st.data r col Role.rainbowLineNumber
      = (if r + st.lineOffset ∈ st.validLineNumbers
         then QVariant.ofInt (r + st.lineOffset) else QVariant.ofInt (-1)) := by
  unfold State.data
  rw [if_neg (not_not_intro hidx)]
  obtain ⟨h1, h2, h3, h4⟩ := hidx
  rw [if_neg (by omega : ¬(r > (st.sourceCode.length : Int) ∨ r < 0))]
  simp

theorem data_highlight_eval (st : State) (r col : Int) (hidx : st.hasIndex r col) :
    st.data r col Role.highlight
      = QVariant.ofBool (decide (r + st.lineOffset = st.highlightLine)) := by
  unfold State.data
  rw [if_neg (not_not_intro hidx)]
  obtain ⟨h1, h2, h3, h4⟩ := hidx
  rw [if_neg (by omega : ¬(r > (st.sourceCode.length : Int) ∨ r < 0))]
  simp

/-- C8: the valid-line set holds exactly the source lines with at least
one disassembly entry of non-zero source line resolving to them
(independent of whether the entry's address carried cost), and at every
in-range index the `RainbowLineNumberRole` query returns `r + offset`
when that line is valid and `−1` otherwise. -/
theorem C8_valid_line_set (st : State) (d : DisassemblyOutput) (content : String)
    (st' : State) (L r col : Int)
    (hname : d.sourceFileName ≠ "")
    (h : setDisassembly st d (some content) = some st')
    (hidx : st'.hasIndex r col) :
    (L ∈ st'.validLineNumbers ↔ ∃ l ∈ d.disassemblyLines, l.sourceCodeLine = L ∧ L ≠ 0)
    ∧ st'.data r col Role.rainbowLineNumber
        = (if r + st'.lineOffset ∈ st'.validLineNumbers
           then QVariant.ofInt (r + st'.lineOffset) else QVariant.ofInt (-1)) := by
  refine ⟨?_, data_rainbow_eval st' r col hidx⟩
  obtain ⟨slice, hs, hst⟩ := setDisassembly_some_inv st d content st' hname h
  rw [hst]
  show L ∈ (scanOf st d).valid ↔ _
  unfold scanOf
  rw [scan_valid_mem]
  simp

/-- Witness for C8 at the spec's scenario: line 7 is valid although it
carries no cost, and row 3 (line 7) answers the rainbow query with 7. -/
theorem C8_witness :
    ((7 : Int) ∈ sampleLoaded.validLineNumbers
      ↔ ∃ l ∈ sampleDisassembly.disassemblyLines, l.sourceCodeLine = 7 ∧ (7 : Int) ≠ 0)
    ∧ sampleLoaded.data 3 0 Role.rainbowLineNumber
        = (if (3 : Int) + sampleLoaded.lineOffset ∈ sampleLoaded.validLineNumbers
           then QVariant.ofInt (3 + sampleLoaded.lineOffset) else QVariant.ofInt (-1)) :=
  C8_valid_line_set sampleState sampleDisassembly sampleContent sampleLoaded 7 3 0
    (by decide) (by decide) (by decide)

/-- C9: `updateHighlighting(L)` changes only the highlighted-line field;
afterwards the `HighlightRole` query at an in-range index answers true
exactly when `r + offset = L`, and every query for any other role — in
particular `CostRole` and `TotalCostRole` cells — is unchanged. -/
theorem C9_highlight (st : State) (L r col : Int)
    (hidx : (st.updateHighlighting L).hasIndex r col) :
    st.updateHighlighting L = { st with highlightLine := L }
    ∧ ((st.updateHighlighting L).data r col Role.highlight = QVariant.ofBool true
        ↔ r + st.lineOffset = L)
    ∧ (∀ role, role ≠ Role.highlight →
        (st.updateHighlighting L).data r col role = st.data r col role) := by
  refine ⟨rfl, ?_, ?_⟩
  · rw [data_highlight_eval (st.updateHighlighting L) r col hidx]
    show QVariant.ofBool (decide (r + st.lineOffset = L)) = QVariant.ofBool true
        ↔ r + st.lineOffset = L
    simp
  · intro role hrole
    cases role with
    | display => rfl
    | toolTip => rfl
    | cost => rfl
    | totalCost => rfl
    | highlight => exact absurd rfl hrole
    | rainbowLineNumber => rfl

/-- Witness for C9 at the spec's scenario: highlight line 7; row 3
(line 7) answers true, and the cost cell at row 1 is unchanged. -/
theorem C9_witness :
    sampleLoaded.updateHighlighting 7 = { sampleLoaded with highlightLine := 7 }
    ∧ ((sampleLoaded.updateHighlighting 7).data 3 0 Role.highlight = QVariant.ofBool true
        ↔ (3 : Int) + sampleLoaded.lineOffset = 7)
    ∧ (∀ role, role ≠ Role.highlight →
        (sampleLoaded.updateHighlighting 7).data 3 0 role = sampleLoaded.data 3 0 role) :=
  C9_highlight sampleLoaded 7 3 0 (by decide)

/-- C10: implicit precondition of the row-building loop: with `M` the
maximum non-zero referenced source line, the load's unchecked `lines[i]`
indexing goes out of bounds (the embedding's `none` branch) exactly when
the newline-split file holds fewer than `M` lines. -/
theorem C10_out_of_bounds (st : State) (d : DisassemblyOutput) (content : String)
    (m M : Int)
    (hname : d.sourceFileName ≠ "")
    (hb : ∀ l ∈ d.disassemblyLines, 0 ≤ l.sourceCodeLine ∧ l.sourceCodeLine ≤ INT_MAX)
    (hmemm : ∃ l ∈ d.disassemblyLines, l.sourceCodeLine = m ∧ m ≠ 0)
    (hmin : ∀ l ∈ d.disassemblyLines, l.sourceCodeLine ≠ 0 → m ≤ l.sourceCodeLine)
    (hmemM : ∃ l ∈ d.disassemblyLines, l.sourceCodeLine = M ∧ M ≠ 0)
    (hmax : ∀ l ∈ d.disassemblyLines, l.sourceCodeLine ≠ 0 → l.sourceCodeLine ≤ M) :
    (setDisassembly st d (some content) = none
      ↔ ((splitLines content).length : Int) < M) := by
  have hm1 : 1 ≤ m := by
    obtain ⟨l, hl, hline, hne⟩ := hmemm
    have := (hb l hl).1
    omega
  have hmM : m ≤ M := by
    obtain ⟨l, hl, hline, hne⟩ := hmemm
    have := hmax l hl (by rw [hline]; exact hne)
    omega
  have hminEq : (scanOf st d).minLine = m := by
    unfold scanOf
    apply scan_minLine_eq
    · show m ≤ INT_MAX
      obtain ⟨l, hl, hline, _⟩ := hmemm
      have := (hb l hl).2
      omega
    · exact hmemm
    · exact hmin
  have hmaxEq : (scanOf st d).maxLine = M := by
    unfold scanOf
    apply scan_maxLine_eq
    · show (0 : Int) ≤ M
      omega
    · exact hmemM
    · exact hmax
  have hiff : (sliceRows (splitLines content) (m - 1) M = none)
      ↔ ((splitLines content).length : Int) < M := by
    unfold sliceRows
    rw [← Option.not_isSome_iff_eq_none,
        sliceRowsAux_isSome (splitLines content) (M - (m - 1)).toNat (m - 1) (by omega)]
    omega
  rw [setDisassembly_some_eq st d content hname, hminEq, hmaxEq]
  cases hs : sliceRows (splitLines content) (m - 1) M with
  | none => exact iff_of_true rfl (hiff.mp hs)
  | some slice =>
    refine iff_of_false (by simp) (fun hlen => ?_)
    rw [hiff.mpr hlen] at hs
    cases hs

def shortContent : String := "a\nb"

/-- Witness for C10: the sample disassembly references up to line 7, but
the file has only 2 lines, so the load takes the out-of-bounds branch. -/
theorem C10_witness :
    setDisassembly sampleState sampleDisassembly (some shortContent) = none
      ↔ ((splitLines shortContent).length : Int) < 7 :=
  C10_out_of_bounds sampleState sampleDisassembly shortContent 5 7
    (by decide) (by decide) (by decide) (by decide) (by decide) (by decide)

end SourceCodeModelSpec
